import Mathlib

/-!
Verification of the Health-Tracker prediction core
(`backend/predictor/ml_predictor.py`, `views.py`, `serializers.py`).

The Python code is shallowly embedded: Django rows become Lean structures,
querysets become lists in query order, Python dicts become association lists
with the dict's insert/update semantics, numpy float arithmetic is modelled
exactly over `ℚ` (feature values are the integer weights/severities, so all
arithmetic is rational), and `round(x, 2)` is modelled as rounding `x * 100`
to the nearest integer (Mathlib's `round`, half-up; Python rounds half to
even, which agrees everywhere except exact two-decimal midpoints).
Python's stable sorts (`list.sort(key=..., reverse=True)`) and numpy's
stable argsort are modelled by sorting index-value pairs by the
lexicographic order (key, then original position), which is extensionally
the unique stable sort.
-/

/-- A `DiseaseSymptom` row: one (disease, symptom) pairing with its weight
(`models.py`, weight validated to lie in `[1,10]`).  The disease is implicit:
rows are stored inside their `Disease`. -/
structure DiseaseSymptomRow where
  symptomId : ℕ
  weight : ℕ
  deriving DecidableEq, Repr

/-- A `Disease` row together with its related `disease_symptoms` rows, in
queryset order.  The unique disease name — used as the training label and
sorted lexicographically by `LabelEncoder` — is modelled by a natural number,
order-isomorphically to the lexicographic order on names. -/
structure Disease where
  id : ℕ
  name : ℕ
  diseaseSymptoms : List DiseaseSymptomRow
  deriving DecidableEq, Repr

/-- A `SubmissionSymptom` row: a symptom observed in a historical submission
with the user's severity rating (validated to lie in `[1,10]`). -/
structure SubmissionSymptomRow where
  symptomId : ℕ
  severity : ℕ
  deriving DecidableEq, Repr

/-- A historical `UserSubmission` that has a primary prediction set: its
observed symptoms and the name of the predicted disease. -/
structure SubmissionRow where
  symptoms : List SubmissionSymptomRow
  primaryPredictionName : ℕ
  deriving DecidableEq, Repr

/-- The database as the predictor reads it: `Symptom.objects.all()` is the
list of symptom ids in queryset order (ids are primary keys, hence distinct),
`Disease.objects.all()` with prefetched rows, and the historical submissions
that have `primary_prediction` set, in queryset order. -/
structure DB where
  symptomIds : List ℕ
  diseases : List Disease
  submissions : List SubmissionRow
  deriving DecidableEq, Repr

/-- One entry of a prediction list: the disease (by id) and its confidence.
Models the `{'disease': ..., 'confidence': ...}` dicts. -/
structure Prediction where
  diseaseId : ℕ
  confidence : ℚ
  deriving DecidableEq, Repr

/-- An observation handed to the prediction core: `{'id': ..., 'severity': ...}`
(duration and onset are carried along by the caller but never read by the
scoring code, so they are omitted). -/
structure Observation where
  id : ℕ
  severity : ℕ
  deriving DecidableEq, Repr

/-- Python's `round(q, 2)`: round to two decimal places.  Mathlib's `round`
rounds halves up while Python rounds halves to even; the two agree except at
exact two-decimal midpoints. -/
def round2 (q : ℚ) : ℚ := (round (q * 100) : ℤ) / 100

/-- The slot of a symptom id in the encoder built by
`{symptom.id: idx for idx, symptom in enumerate(all_symptoms)}`
(`ml_predictor.py:37`): the position of the id in the symptom list.  Symptom
ids are primary keys, hence distinct, so first and last occurrence coincide. -/
def findSlot (k : ℕ) : List ℕ → Option ℕ
  | [] => none
  | s :: rest => if s = k then some 0 else (findSlot k rest).map (· + 1)

/-- The feature-vector construction shared by `prepare_training_data` and
`predict` (`ml_predictor.py:45-51,63-69,117-122`): start from
`np.zeros(symptom_count)` and write each entry's value into the slot of its
symptom id, silently skipping ids unknown to the encoder.  The values written
are the raw integer weights/severities. -/
def setSlot (slots : List ℕ) (v : List ℕ) (e : ℕ × ℕ) : List ℕ :=
  match findSlot e.1 slots with
  | some i => v.set i e.2
  | none => v

/-- See `setSlot` for the loop body. -/
def buildFeatureVector (slots : List ℕ) (entries : List (ℕ × ℕ)) : List ℕ :=
  entries.foldl (setSlot slots) (List.replicate slots.length 0)

/-- The training vector built for a disease (`ml_predictor.py:45-51`):
slot of each related symptom holds the pairing's weight. -/
def diseaseVector (db : DB) (d : Disease) : List ℕ :=
  buildFeatureVector db.symptomIds (d.diseaseSymptoms.map fun ds => (ds.symptomId, ds.weight))

/-- The training vector built for a historical submission
(`ml_predictor.py:63-69`): slot of each observed symptom holds the user's
severity rating. -/
def submissionVector (db : DB) (s : SubmissionRow) : List ℕ :=
  buildFeatureVector db.symptomIds (s.symptoms.map fun ss => (ss.symptomId, ss.severity))

/-- `prepare_training_data` (`ml_predictor.py:26-74`): one vector per disease
labelled by its name, then one vector per eligible historical submission
(capped at 1000) labelled by its primary prediction's name. -/
def prepareTrainingData (db : DB) : List (List ℕ) × List ℕ :=
  (db.diseases.map (diseaseVector db) ++ (db.submissions.take 1000).map (submissionVector db),
   db.diseases.map (·.name) ++ (db.submissions.take 1000).map (·.primaryPredictionName))

/-- The fitted `MultinomialNB(alpha=1.0)`: its sufficient statistics, one row
per encoded class in class-index order.  `classCount c` is the number of
training samples with class `c`; `featureCount c` is the componentwise sum of
the feature vectors of those samples. -/
structure FittedNB where
  classCount : List ℕ
  featureCount : List (List ℕ)
  deriving DecidableEq, Repr

/-- Componentwise sum of a list of feature vectors of length `n`
(all training vectors have length `symptom_count`). -/
def vecSum (n : ℕ) (vs : List (List ℕ)) : List ℕ :=
  vs.foldl (fun acc v => List.zipWith (· + ·) acc v) (List.replicate n 0)

/-- `LabelEncoder.fit_transform` class ordering: `np.unique` of the labels,
i.e. the distinct labels sorted (lexicographically on the real string names,
here by the order on their numeric stand-ins); the encoded class index of a
label is its position in this list. -/
def classesOf (y : List ℕ) : List ℕ :=
  List.insertionSort (· ≤ ·) y.dedup

/-- `MultinomialNB.fit` on vectors `X` with encoded labels `y` (class `c`
collects the samples labelled `classes[c]`); `nFeat` is the common vector
length. -/
def fitNB (nFeat : ℕ) (X : List (List ℕ)) (y : List ℕ) (classes : List ℕ) :
    FittedNB where
  classCount := classes.map fun c => (y.filter (fun l => l == c)).length
  featureCount := classes.map fun c =>
    vecSum nFeat (((X.zip y).filter (fun p => p.2 == c)).map (·.1))

/-- The smoothed multinomial likelihood factor of one class for input `v`:
`∏ j, θ_j ^ v_j` with `θ_j = (count_j + α) / (Σ count + α·n_features)`,
`α = 1`. -/
def thetaProd (fc : List ℕ) (v : List ℕ) : ℚ :=
  ((fc.zip v).map fun q => (((q.1 : ℚ) + 1) / ((fc.sum : ℚ) + fc.length)) ^ q.2).prod

/-- `predict_proba` for the fitted model: joint scores
`prior_c · ∏ θ_{c,j} ^ v_j` normalized to sum to 1.  sklearn computes this in
log space with floats; here it is computed exactly over `ℚ`. -/
def nbProba (m : FittedNB) (v : List ℕ) : List ℚ :=
  let joints := (m.classCount.zip m.featureCount).map fun p =>
    ((p.1 : ℚ) / (m.classCount.sum : ℚ)) * thetaProd p.2 v
  joints.map (· / joints.sum)

/-- The order underlying numpy's stable ascending argsort of a value list:
index-value pairs compared by value, ties by original index. -/
def probRelAsc (a b : ℕ × ℚ) : Prop :=
  a.2 < b.2 ∨ (a.2 = b.2 ∧ a.1 ≤ b.1)

instance : DecidableRel probRelAsc := fun a b => by
  unfold probRelAsc; exact inferInstance

instance : IsTotal (ℕ × ℚ) probRelAsc :=
  ⟨fun a b => by
    unfold probRelAsc
    rcases lt_trichotomy a.2 b.2 with h | h | h
    · exact Or.inl (Or.inl h)
    · rcases le_total a.1 b.1 with h' | h'
      · exact Or.inl (Or.inr ⟨h, h'⟩)
      · exact Or.inr (Or.inr ⟨h.symm, h'⟩)
    · exact Or.inr (Or.inl h)⟩

instance : IsTrans (ℕ × ℚ) probRelAsc :=
  ⟨fun a b c hab hbc => by
    unfold probRelAsc at *
    rcases hab with h1 | ⟨h1, h1'⟩ <;> rcases hbc with h2 | ⟨h2, h2'⟩
    · exact Or.inl (h1.trans h2)
    · exact Or.inl (h2 ▸ h1)
    · exact Or.inl (h1 ▸ h2)
    · exact Or.inr ⟨h1.trans h2, h1'.trans h2'⟩⟩

/-- `np.argsort(p)` with a stable sort: the indices of `p` ordered by value
ascending, ties in original order.  numpy's default quicksort is stable on the
small arrays at hand (insertion sort is used below 16 elements). -/
def argsortAsc (p : List ℚ) : List ℕ :=
  (List.insertionSort probRelAsc p.enum).map Prod.fst

/-- `np.argsort(probabilities)[-top_k:][::-1]` (`ml_predictor.py:128`).
Note Python's `[-k:]` slice takes the whole list when `k = 0`. -/
def topKIndices (p : List ℚ) (k : ℕ) : List ℕ :=
  ((argsortAsc p).drop (if k = 0 then 0 else p.length - k)).reverse

/-- The in-memory state of `NaiveBayesPredictor` after a successful train or
load: the fitted model, `label_encoder.classes_`, the symptom-slot mapping and
the `is_trained` flag. -/
structure ModelState where
  model : FittedNB
  labelClasses : List ℕ
  symptomEncoder : List ℕ
  isTrained : Bool
  deriving DecidableEq, Repr

/-- The artifact written by `save_model` (`ml_predictor.py:147-156`): a dict
with the model, the label encoder, the symptom encoder and the trained flag. -/
structure SavedBlob where
  model : FittedNB
  labelClasses : List ℕ
  symptomEncoder : List ℕ
  isTrained : Bool
  deriving DecidableEq, Repr

/-- `save_model`: serialize the four components.  `joblib.dump`/`load`
round-trips values exactly, so serialization itself is modelled as identity on
each component. -/
def saveModelBlob (st : ModelState) : SavedBlob :=
  ⟨st.model, st.labelClasses, st.symptomEncoder, st.isTrained⟩

/-- `load_model` on an existing artifact (`ml_predictor.py:160-165`):
reassemble the predictor state from the four stored components. -/
def loadModelState (b : SavedBlob) : ModelState :=
  ⟨b.model, b.labelClasses, b.symptomEncoder, b.isTrained⟩

/-- The predictor state produced by a successful `train` (`ml_predictor.py:76-99`):
fit the label encoder and the model on the prepared data, set `is_trained`. -/
def trainedState (db : DB) : ModelState :=
  let Xy := prepareTrainingData db
  ⟨fitNB db.symptomIds.length Xy.1 Xy.2 (classesOf Xy.2), classesOf Xy.2, db.symptomIds, true⟩

/-- The summary counts returned by `train`. -/
structure TrainStats where
  samples : ℕ
  diseases : ℕ
  symptoms : ℕ
  deriving DecidableEq, Repr

/-- `train` (`ml_predictor.py:76-99`) acting on the persisted store: if the
assembled training set is empty it raises `ValueError("No training data
available")` before anything is persisted, leaving the store untouched;
otherwise it fits the model, saves it, and returns the summary counts. -/
def train (db : DB) (store : Option SavedBlob) :
    Except String TrainStats × Option SavedBlob :=
  if (prepareTrainingData db).1.length = 0 then
    (Except.error "No training data available", store)
  else
    (Except.ok
      ⟨(prepareTrainingData db).1.length, (classesOf (prepareTrainingData db).2).length,
        db.symptomIds.length⟩,
      some (saveModelBlob (trainedState db)))

/-- `NaiveBayesPredictor.predict` (`ml_predictor.py:101-145`) on a loaded
state: build the feature vector through the state's symptom encoder, compute
the class probabilities, select the top-k indices, then resolve each class
name to a `Disease` row (`Disease.objects.get(name=...)`) — a name with no
current row is silently dropped —
reporting `round(probability * 100, 2)` as the confidence. -/
def nbPredict (db : DB) (st : ModelState) (sd : List Observation) (k : ℕ) :
    List Prediction :=
  let v := buildFeatureVector st.symptomEncoder (sd.map fun s => (s.id, s.severity))
  let probs := nbProba st.model v
  (topKIndices probs k).filterMap fun i =>
    match db.diseases.find? (fun d => d.name == st.labelClasses.getD i 0) with
    | some d => some ⟨d.id, round2 (probs.getD i 0 * 100)⟩
    | none => none

/-- The severity dict `{s['id']: s['severity'] for s in symptom_data}`
(`ml_predictor.py:197`) looked up with default `dflt`
(`symptom_severities.get(ds.symptom_id, 5)` at line 227): a Python dict keeps
the last value bound to a key, hence the reversed search.  The default is a
parameter so that its unreachability can be stated. -/
def sevLookupD (dflt : ℕ) (sd : List Observation) (sid : ℕ) : ℕ :=
  ((sd.reverse.find? fun s => s.id == sid).map (·.severity)).getD dflt

/-- The user-history dict `{p['disease_id']: p['count']}` (`ml_predictor.py:212`):
per disease id, the count of the user's prior predictions of that disease
with confidence ≥ 70.  Group-by keys are distinct, so first match suffices. -/
def historyLookup (hist : List (ℕ × ℕ)) (did : ℕ) : Option ℕ :=
  (hist.find? fun p => p.1 == did).map (·.2)

/-- `disease.disease_symptoms.filter(symptom_id__in=symptom_ids)`
(`ml_predictor.py:215`): the disease's rows whose symptom occurs in the
input. -/
def matchedRows (sd : List Observation) (d : Disease) : List DiseaseSymptomRow :=
  d.diseaseSymptoms.filter fun ds => sd.any fun s => s.id == ds.symptomId

/-- The per-disease body of `_rule_based_predict` (`ml_predictor.py:214-245`)
with the severity-lookup default as a parameter: skip diseases with no
overlapping symptom; otherwise combine the match percentage and the
severity-weighted percentage 40/60, add the clamped history bonus, and round. -/
def scoreDiseaseD (dflt : ℕ) (sd : List Observation) (hist : List (ℕ × ℕ))
    (d : Disease) : Option Prediction :=
  let matched := matchedRows sd d
  if matched.isEmpty then none
  else
    let matchPercentage : ℚ :=
      ((matched.length : ℚ) / (d.diseaseSymptoms.length : ℚ)) * 100
    let weightScore : ℚ :=
      (matched.map fun ds => (ds.weight : ℚ) * ((sevLookupD dflt sd ds.symptomId : ℚ) / 10)).sum
    let maxPossibleWeight : ℚ := (matched.map fun ds => (ds.weight : ℚ)).sum
    let weightPercentage : ℚ :=
      if 0 < maxPossibleWeight then (weightScore / maxPossibleWeight) * 100 else 0
    let confidence : ℚ := matchPercentage * (4/10) + weightPercentage * (6/10)
    let confidence : ℚ :=
      match historyLookup hist d.id with
      | some cnt => min (confidence + min ((cnt : ℚ) * 3) 15) 100
      | none => confidence
    some ⟨d.id, round2 confidence⟩

/-- The order underlying Python's stable
`sort(key=lambda x: x['confidence'], reverse=True)`: confidence descending,
ties by original position ascending. -/
def combRel (a b : ℕ × Prediction) : Prop :=
  b.2.confidence < a.2.confidence ∨ (a.2.confidence = b.2.confidence ∧ a.1 ≤ b.1)

instance : DecidableRel combRel := fun a b => by
  unfold combRel; exact inferInstance

instance : IsTotal (ℕ × Prediction) combRel :=
  ⟨fun a b => by
    unfold combRel
    rcases lt_trichotomy a.2.confidence b.2.confidence with h | h | h
    · exact Or.inr (Or.inl h)
    · rcases le_total a.1 b.1 with h' | h'
      · exact Or.inl (Or.inr ⟨h, h'⟩)
      · exact Or.inr (Or.inr ⟨h.symm, h'⟩)
    · exact Or.inl (Or.inl h)⟩

instance : IsTrans (ℕ × Prediction) combRel :=
  ⟨fun a b c hab hbc => by
    unfold combRel at *
    rcases hab with h1 | ⟨h1, h1'⟩ <;> rcases hbc with h2 | ⟨h2, h2'⟩
    · exact Or.inl (h2.trans h1)
    · exact Or.inl (h2 ▸ h1)
    · exact Or.inl (h1 ▸ h2)
    · exact Or.inr ⟨h1.trans h2, h1'.trans h2'⟩⟩

/-- Python's stable descending sort by confidence
(`disease_scores.sort(key=lambda x: x['confidence'], reverse=True)`). -/
def sortByConfDesc (l : List Prediction) : List Prediction :=
  (List.insertionSort combRel l.enum).map Prod.snd

/-- `_rule_based_predict` (`ml_predictor.py:194-248`) with the severity
default as a parameter: score every disease, sort descending by confidence
(stable), keep the top 5. -/
def ruleBasedPredictD (dflt : ℕ) (db : DB) (sd : List Observation)
    (hist : List (ℕ × ℕ)) : List Prediction :=
  (sortByConfDesc (db.diseases.filterMap (scoreDiseaseD dflt sd hist))).take 5

/-- `_rule_based_predict` as written, with default severity 5. -/
def ruleBasedPredict (db : DB) (sd : List Observation) (hist : List (ℕ × ℕ)) :
    List Prediction :=
  ruleBasedPredictD 5 db sd hist

/-- One entry of the combiner's dict: disease id, `ml_confidence`,
`rule_confidence`. -/
abbrev CombEntry := ℕ × ℚ × ℚ

/-- The ML loop of `_combine_predictions` (`ml_predictor.py:260-267`):
`combined[disease_id] = {..., 'ml_confidence': conf, 'rule_confidence': 0}` —
overwrite if the key is present (keeping its dict position), else append. -/
def addML (acc : List CombEntry) (p : Prediction) : List CombEntry :=
  if acc.any (fun e => e.1 == p.diseaseId) then
    acc.map fun e => if e.1 == p.diseaseId then (p.diseaseId, p.confidence, 0) else e
  else acc ++ [(p.diseaseId, p.confidence, 0)]

/-- The rule loop of `_combine_predictions` (`ml_predictor.py:269-279`): update
`rule_confidence` in place if the key is present, else append a fresh entry
with `ml_confidence = 0`. -/
def addRule (acc : List CombEntry) (p : Prediction) : List CombEntry :=
  if acc.any (fun e => e.1 == p.diseaseId) then
    acc.map fun e => if e.1 == p.diseaseId then (e.1, e.2.1, p.confidence) else e
  else acc ++ [(p.diseaseId, 0, p.confidence)]

/-- The `combined` dict of `_combine_predictions` after both loops, in dict
insertion order. -/
def combinedTable (ml rule : List Prediction) : List CombEntry :=
  rule.foldl addRule (ml.foldl addML [])

/-- `_combine_predictions` (`ml_predictor.py:250-294`): weight each entry
60/40, round to 2 decimals, and sort descending by the combined confidence
(Python's sort is stable, so ties keep dict insertion order). -/
def combinePredictions (ml rule : List Prediction) : List Prediction :=
  sortByConfDesc ((combinedTable ml rule).map fun e =>
    ⟨e.1, round2 (e.2.1 * (6/10) + e.2.2 * (4/10))⟩)

/-- `HybridPredictor.predict` (`ml_predictor.py:179-192`): combine the top-5
ML predictions with the rule-based predictions and return the top 3. -/
def hybridPredict (db : DB) (st : ModelState) (sd : List Observation)
    (hist : List (ℕ × ℕ)) : List Prediction :=
  (combinePredictions (nbPredict db st sd 5) (ruleBasedPredict db sd hist)).take 3

/-- The first confidence recorded for disease `k` in a prediction list, 0 if
absent — the "missing side counts as 0" convention of the combiner. -/
def confOf (l : List Prediction) (k : ℕ) : ℚ :=
  ((l.find? fun p => p.diseaseId == k).map (·.confidence)).getD 0

/-- The severity categories of `UserSubmission.SEVERITY_CHOICES`. -/
inductive SeverityCategory where
  | NORMAL
  | MODERATE
  | RISKY
  deriving DecidableEq, Repr

/-- `PredictionViewSet.calculate_severity` (`views.py:46-63`): mean severity
scaled to 0-100, rounded to 2 decimals; the category thresholds are applied
to the unrounded score.  Empty input gives `(0, NORMAL)`. -/
def calculateSeverity (sd : List Observation) : ℚ × SeverityCategory :=
  if sd.isEmpty then (0, SeverityCategory.NORMAL)
  else
    let avgSeverity : ℚ := ((sd.map (·.severity)).sum : ℚ) / (sd.length : ℚ)
    let severityScore : ℚ := (avgSeverity / 10) * 100
    (round2 severityScore,
      if severityScore ≤ 30 then SeverityCategory.NORMAL
      else if severityScore ≤ 70 then SeverityCategory.MODERATE
      else SeverityCategory.RISKY)

/-- A symptom as submitted by the caller, before validation: the severity may
be omitted (`null`).  Duration and onset are validated separately and never
read by the scoring code. -/
structure InputSymptom where
  id : ℕ
  severity : Option ℕ
  deriving DecidableEq, Repr

/-- The weights of all `DiseaseSymptom` rows referencing symptom `sid`
(`DiseaseSymptom.objects.filter(symptom=symptom_obj)`). -/
def weightRowsFor (db : DB) (sid : ℕ) : List ℕ :=
  ((db.diseases.flatMap (·.diseaseSymptoms)).filter fun ds => ds.symptomId == sid).map (·.weight)

/-- The head of a nonempty list of weights ordered descending
(`order_by('-weight').first()`): its maximum; `dflt` when there is no row. -/
def listMaxD : List ℕ → ℕ → ℕ
  | [], d => d
  | x :: xs, _ => xs.foldl max x

/-- The severity auto-fill of `validate_symptoms` (`serializers.py:91-101`):
an omitted severity becomes the highest weight among all rows referencing the
symptom, or 5 when no row references it. -/
def fillSeverity (db : DB) (s : InputSymptom) : ℕ :=
  s.severity.getD (listMaxD (weightRowsFor db s.id) 5)

/-- `UserSubmissionCreateSerializer.validate_symptoms` (`serializers.py:80-101`):
reject an empty list; reject unless every id exists (the count of distinct
existing input ids must equal the number of inputs, so duplicated ids are also
rejected); then auto-fill the omitted severities. -/
def validateSymptoms (db : DB) (input : List InputSymptom) :
    Except String (List Observation) :=
  if input.isEmpty then Except.error "At least one symptom must be provided."
  else if ((input.map (·.id)).dedup.filter fun i => db.symptomIds.contains i).length
      ≠ input.length then
    Except.error "One or more invalid symptom IDs provided."
  else Except.ok (input.map fun s => ⟨s.id, fillSeverity db s⟩)

/-! ### Rounding lemmas -/

theorem round_rat_le_round_rat {p q : ℚ} (h : p ≤ q) : round p ≤ round q := by
  rw [round_eq, round_eq]
  exact Int.floor_le_floor (by linarith)

theorem round2_le_round2 {p q : ℚ} (h : p ≤ q) : round2 p ≤ round2 q := by
  unfold round2
  have h2 : round (p * 100) ≤ round (q * 100) := round_rat_le_round_rat (by linarith)
  have : ((round (p * 100) : ℤ) : ℚ) ≤ ((round (q * 100) : ℤ) : ℚ) := by exact_mod_cast h2
  linarith

theorem round2_intMul (m : ℤ) : round2 ((m : ℚ) / 100) = (m : ℚ) / 100 := by
  unfold round2
  rw [div_mul_cancel₀ _ (by norm_num : (100 : ℚ) ≠ 0), round_intCast]

theorem round2_zero : round2 0 = 0 := by
  have := round2_intMul 0
  simpa using this

theorem round2_hundred : round2 100 = 100 := by
  have := round2_intMul 10000
  norm_num at this
  simpa using this

theorem round2_nonneg {q : ℚ} (h : 0 ≤ q) : 0 ≤ round2 q := by
  have := round2_le_round2 h
  rwa [round2_zero] at this

theorem round2_le_hundred {q : ℚ} (h : q ≤ 100) : round2 q ≤ 100 := by
  have := round2_le_round2 h
  rwa [round2_hundred] at this

/-! ### Feature-encoder lemmas -/

theorem findSlot_some_lt {k i : ℕ} {l : List ℕ} (h : findSlot k l = some i) : i < l.length := by
  induction l generalizing i with
  | nil => simp [findSlot] at h
  | cons s rest ih =>
    rw [findSlot] at h
    by_cases hs : s = k
    · rw [if_pos hs] at h
      injection h with h
      simp only [List.length_cons]
      omega
    · rw [if_neg hs, Option.map_eq_some'] at h
      obtain ⟨j, hj, hji⟩ := h
      have := ih hj
      simp only [List.length_cons]
      omega

theorem findSlot_some_getElem? {k i : ℕ} {l : List ℕ} (h : findSlot k l = some i) :
    l[i]? = some k := by
  induction l generalizing i with
  | nil => simp [findSlot] at h
  | cons s rest ih =>
    rw [findSlot] at h
    by_cases hs : s = k
    · rw [if_pos hs] at h
      injection h with h
      subst h
      simp [hs]
    · rw [if_neg hs, Option.map_eq_some'] at h
      obtain ⟨j, hj, hji⟩ := h
      subst hji
      rw [List.getElem?_cons_succ]
      exact ih hj

theorem findSlot_of_getElem? {k : ℕ} {l : List ℕ} (hnd : l.Nodup) :
    ∀ {i : ℕ}, l[i]? = some k → findSlot k l = some i := by
  induction l with
  | nil => intro i h; simp at h
  | cons s rest ih =>
    intro i h
    match i with
    | 0 =>
      rw [List.getElem?_cons_zero] at h
      injection h with h
      rw [findSlot, if_pos h]
    | i + 1 =>
      rw [List.getElem?_cons_succ] at h
      have hmem : k ∈ rest := by
        have := List.getElem?_eq_some.mp h
        obtain ⟨hb, hv⟩ := this
        exact hv ▸ List.getElem_mem hb
      have hs : s ≠ k := fun he => (List.nodup_cons.mp hnd).1 (he ▸ hmem)
      rw [findSlot, if_neg hs, ih (List.nodup_cons.mp hnd).2 h]
      rfl

theorem findSlot_eq_none {k : ℕ} {l : List ℕ} (h : k ∉ l) : findSlot k l = none := by
  induction l with
  | nil => rfl
  | cons s rest ih =>
    have hs : s ≠ k := fun he => h (he ▸ List.mem_cons_self s rest)
    rw [findSlot, if_neg hs, ih (fun hm => h (List.mem_cons_of_mem s hm))]
    rfl

theorem length_setSlot (slots : List ℕ) (v : List ℕ) (e : ℕ × ℕ) :
    (setSlot slots v e).length = v.length := by
  unfold setSlot
  cases findSlot e.1 slots <;> simp

theorem length_foldl_setSlot (slots : List ℕ) (entries : List (ℕ × ℕ)) (v : List ℕ) :
    (entries.foldl (setSlot slots) v).length = v.length := by
  induction entries generalizing v with
  | nil => rfl
  | cons e rest ih =>
    rw [List.foldl_cons, ih, length_setSlot]

/-- The feature vector always has one slot per known symptom. -/
theorem buildFeatureVector_length (slots : List ℕ) (entries : List (ℕ × ℕ)) :
    (buildFeatureVector slots entries).length = slots.length := by
  unfold buildFeatureVector
  rw [length_foldl_setSlot, List.length_replicate]

theorem foldl_setSlot_getD {slots : List ℕ} (hnd : slots.Nodup) {i : ℕ}
    (hi : i < slots.length) :
    ∀ (entries : List (ℕ × ℕ)), (entries.map Prod.fst).Nodup →
      ∀ (v : List ℕ), v.length = slots.length →
        (entries.foldl (setSlot slots) v).getD i 0 =
          match entries.find? (fun e => e.1 == slots[i]) with
          | some e => e.2
          | none => v.getD i 0 := by
  intro entries
  induction entries with
  | nil => intro _ v _; rfl
  | cons e rest ih =>
    intro hkeys v hv
    rw [List.foldl_cons]
    have hv' : (setSlot slots v e).length = slots.length := by rw [length_setSlot]; exact hv
    rw [ih (List.nodup_cons.mp hkeys).2 _ hv']
    by_cases he : e.1 = slots[i]
    · have hfind : rest.find? (fun x => x.1 == slots[i]) = none := by
        rw [List.find?_eq_none]
        intro x hx hbe
        exact (List.nodup_cons.mp hkeys).1
          (he ▸ (by simpa using hbe : x.1 = slots[i]) ▸ List.mem_map_of_mem Prod.fst hx)
      rw [hfind]
      have hslot : findSlot e.1 slots = some i :=
        findSlot_of_getElem? hnd (by rw [List.getElem?_eq_getElem hi, he])
      have hcons : (e :: rest).find? (fun x => x.1 == slots[i]) = some e := by
        rw [List.find?_cons_of_pos]
        simp [he]
      rw [hcons]
      unfold setSlot
      rw [hslot]
      simp only [List.getD_eq_getElem?_getD]
      rw [List.getElem?_set_self (by omega)]
      rfl
    · have hcons : (e :: rest).find? (fun x => x.1 == slots[i]) =
          rest.find? (fun x => x.1 == slots[i]) := by
        rw [List.find?_cons_of_neg]
        simp [he]
      rw [hcons]
      have hsame : (setSlot slots v e).getD i 0 = v.getD i 0 := by
        unfold setSlot
        cases hslot : findSlot e.1 slots with
        | none => rfl
        | some j =>
          have hj : slots[j]? = some e.1 := findSlot_some_getElem? hslot
          have hij : j ≠ i := by
            intro hji
            apply he
            rw [hji, List.getElem?_eq_getElem hi] at hj
            injection hj with hj
            exact hj.symm
          simp only [List.getD_eq_getElem?_getD]
          rw [List.getElem?_set_ne hij]
      cases rest.find? (fun x => x.1 == slots[i]) with
      | none => exact hsame
      | some x => rfl

/-- Slot `i` of a built feature vector holds the value of the (unique) entry
whose symptom id sits at position `i` of the encoder, and 0 when no entry
references that symptom. -/
theorem buildFeatureVector_getD {slots : List ℕ} (hnd : slots.Nodup)
    (entries : List (ℕ × ℕ)) (hkeys : (entries.map Prod.fst).Nodup) {i : ℕ}
    (hi : i < slots.length) :
    (buildFeatureVector slots entries).getD i 0 =
      match entries.find? (fun e => e.1 == slots[i]) with
      | some e => e.2
      | none => 0 := by
  unfold buildFeatureVector
  rw [foldl_setSlot_getD hnd hi entries hkeys _ (List.length_replicate _ _)]
  cases entries.find? (fun e => e.1 == slots[i]) with
  | none =>
    simp only [List.getD_eq_getElem?_getD, List.getElem?_replicate]
    rw [if_pos hi]
    rfl
  | some e => rfl

theorem mappedVector_getD {slots : List ℕ} (hnd : slots.Nodup) {α : Type}
    (l : List α) (key : α → ℕ) (val : α → ℕ) (hkeys : (l.map key).Nodup) {i : ℕ}
    (hi : i < slots.length) :
    (buildFeatureVector slots (l.map fun a => (key a, val a))).getD i 0 =
      (((l.find? fun a => key a == slots[i]).map val).getD 0) := by
  have hk : ((l.map fun a => (key a, val a)).map Prod.fst).Nodup := by
    rw [List.map_map]
    exact hkeys
  rw [buildFeatureVector_getD hnd _ hk hi, List.find?_map]
  have hcomp : ((fun (e : ℕ × ℕ) => e.1 == slots[i]) ∘ fun a => (key a, val a)) =
      fun a => key a == slots[i] := rfl
  rw [hcomp]
  cases l.find? (fun a => key a == slots[i]) <;> rfl

/-- C1, counterexample to the claim as stated: `prepare_training_data` writes
the raw weight into the slot (`feature_vector[symptom_idx] = ds.weight`,
`ml_predictor.py:51`) with no division by 10.  For a database with one
symptom `1` and one disease whose pairing has weight 8, the built vector is
`[8]`: the slot value, as the float 8 held by the numpy array, is neither
`weight/10 = 8/10` nor in `[0,1]`. -/
theorem c1_vector_value_not_normalized :
    diseaseVector ⟨[1], [⟨1, 1, [⟨1, 8⟩]⟩], []⟩ ⟨1, 1, [⟨1, 8⟩]⟩ = [8] ∧
    ¬ (((8 : ℕ) : ℚ) = 8 / 10) ∧ ¬ (((8 : ℕ) : ℚ) ≤ 1) :=
  ⟨by decide, by norm_num, by norm_num⟩

/-- C1 (amended): for every training run, the feature vector built for a
disease has length equal to the number of known symptoms, with slot `i` equal
to the raw disease–symptom weight (not divided by 10) when the (disease,
symptom) pairing exists and 0 otherwise; a vector built from a submission's
observations likewise holds the raw observed severity in the symptom's
slot. -/
theorem c1_feature_vector_raw_slots (db : DB) (d : Disease) (s : SubmissionRow)
    (hnd : db.symptomIds.Nodup)
    (hd : (d.diseaseSymptoms.map (·.symptomId)).Nodup)
    (hs : (s.symptoms.map (·.symptomId)).Nodup)
    (i : ℕ) (hi : i < db.symptomIds.length) :
    (diseaseVector db d).length = db.symptomIds.length ∧
    (submissionVector db s).length = db.symptomIds.length ∧
    (diseaseVector db d).getD i 0 =
      (((d.diseaseSymptoms.find? fun ds => ds.symptomId == db.symptomIds[i]).map
        (·.weight)).getD 0) ∧
    (submissionVector db s).getD i 0 =
      (((s.symptoms.find? fun ss => ss.symptomId == db.symptomIds[i]).map
        (·.severity)).getD 0) := by
  refine ⟨buildFeatureVector_length _ _, buildFeatureVector_length _ _, ?_, ?_⟩
  · unfold diseaseVector
    exact mappedVector_getD hnd d.diseaseSymptoms (·.symptomId) (·.weight) hd hi
  · unfold submissionVector
    exact mappedVector_getD hnd s.symptoms (·.symptomId) (·.severity) hs hi

/-- C1 witness: the amended theorem applied to a two-symptom database. -/
theorem c1_feature_vector_raw_slots_witness :
    ([3, 7] : List ℕ).Nodup ∧
    ((([⟨7, 9⟩] : List DiseaseSymptomRow).map (·.symptomId)).Nodup) ∧
    ((([⟨3, 4⟩] : List SubmissionSymptomRow).map (·.symptomId)).Nodup) ∧
    (diseaseVector ⟨[3, 7], [⟨1, 1, [⟨7, 9⟩]⟩], [⟨[⟨3, 4⟩], 1⟩]⟩ ⟨1, 1, [⟨7, 9⟩]⟩).getD 1 0 = 9 ∧
    (submissionVector ⟨[3, 7], [⟨1, 1, [⟨7, 9⟩]⟩], [⟨[⟨3, 4⟩], 1⟩]⟩ ⟨[⟨3, 4⟩], 1⟩).getD 0 0 = 4 := by
  refine ⟨by decide, by decide, by decide, ?_, ?_⟩
  · have h := (c1_feature_vector_raw_slots ⟨[3, 7], [⟨1, 1, [⟨7, 9⟩]⟩], [⟨[⟨3, 4⟩], 1⟩]⟩
      ⟨1, 1, [⟨7, 9⟩]⟩ ⟨[⟨3, 4⟩], 1⟩ (by decide) (by decide) (by decide) 1 (by decide)).2.2.1
    rw [h]
    decide
  · have h := (c1_feature_vector_raw_slots ⟨[3, 7], [⟨1, 1, [⟨7, 9⟩]⟩], [⟨[⟨3, 4⟩], 1⟩]⟩
      ⟨1, 1, [⟨7, 9⟩]⟩ ⟨[⟨3, 4⟩], 1⟩ (by decide) (by decide) (by decide) 0 (by decide)).2.2.2
    rw [h]
    decide

/-! ### Severity assessor (C5) -/

theorem severity_sum_nonneg (sd : List Observation) :
    (0 : ℚ) ≤ (sd.map (fun s => (s.severity : ℚ))).sum := by
  apply List.sum_nonneg
  intro x hx
  obtain ⟨s, _, rfl⟩ := List.mem_map.mp hx
  positivity

theorem severity_sum_le {sd : List Observation}
    (hsev : ∀ s ∈ sd, s.severity ≤ 10) :
    (sd.map (fun s => (s.severity : ℚ))).sum ≤ 10 * (sd.length : ℚ) := by
  have h : (sd.map (fun s => (s.severity : ℚ))).sum ≤ (sd.map (fun _ => (10 : ℚ))).sum :=
    List.sum_le_sum fun s hs => by exact_mod_cast hsev s hs
  have h2 : (sd.map (fun _ => (10 : ℚ))).sum = 10 * (sd.length : ℚ) := by
    induction sd with
    | nil => simp
    | cons a l ih => simp [ih]; ring
  exact h.trans h2.le

/-- C5: the severity assessor returns `(mean severity / 10) × 100` rounded to
2 decimals, with category NORMAL when the (unrounded) score is ≤ 30, MODERATE
when it is in (30, 70], RISKY above 70; the empty list yields `(0, NORMAL)`;
and for severities in `[1,10]` the returned score lies in `[0,100]`. -/
theorem c5_calculate_severity (sd : List Observation)
    (hsev : ∀ s ∈ sd, 1 ≤ s.severity ∧ s.severity ≤ 10) :
    (sd = [] → calculateSeverity sd = (0, SeverityCategory.NORMAL)) ∧
    (sd ≠ [] →
      calculateSeverity sd =
        (round2 ((((sd.map (fun s => (s.severity : ℚ))).sum / (sd.length : ℚ)) / 10) * 100),
          if (((sd.map (fun s => (s.severity : ℚ))).sum / (sd.length : ℚ)) / 10) * 100 ≤ 30 then
            SeverityCategory.NORMAL
          else if (((sd.map (fun s => (s.severity : ℚ))).sum / (sd.length : ℚ)) / 10) * 100 ≤ 70
            then SeverityCategory.MODERATE
          else SeverityCategory.RISKY)) ∧
    0 ≤ (calculateSeverity sd).1 ∧ (calculateSeverity sd).1 ≤ 100 := by
  have hnonneg : sd ≠ [] → 0 ≤ (calculateSeverity sd).1 := by
    intro hnz
    have hne : ¬ sd.isEmpty := by simpa using hnz
    unfold calculateSeverity
    rw [if_neg hne]
    apply round2_nonneg
    have hn : (0 : ℚ) < (sd.length : ℚ) := by
      have : 0 < sd.length := List.length_pos.mpr hnz
      exact_mod_cast this
    have hs := severity_sum_nonneg sd
    apply mul_nonneg _ (by norm_num)
    apply div_nonneg _ (by norm_num)
    exact div_nonneg hs hn.le
  have hle : sd ≠ [] → (calculateSeverity sd).1 ≤ 100 := by
    intro hnz
    have hne : ¬ sd.isEmpty := by simpa using hnz
    unfold calculateSeverity
    rw [if_neg hne]
    apply round2_le_hundred
    have hn : (0 : ℚ) < (sd.length : ℚ) := by
      have : 0 < sd.length := List.length_pos.mpr hnz
      exact_mod_cast this
    have hsle : (sd.map (fun s => (s.severity : ℚ))).sum ≤ 10 * (sd.length : ℚ) :=
      severity_sum_le fun s hs => (hsev s hs).2
    rw [div_div, div_mul_eq_mul_div, div_le_iff₀ (by positivity)]
    nlinarith
  refine ⟨fun h => by subst h; rfl, fun h => ?_, ?_, ?_⟩
  · unfold calculateSeverity
    rw [if_neg (by simpa using h)]
  · rcases eq_or_ne sd [] with h | h
    · subst h; norm_num [calculateSeverity]
    · exact hnonneg h
  · rcases eq_or_ne sd [] with h | h
    · subst h; norm_num [calculateSeverity]
    · exact hle h

/-- C5 witness: two observations of severities 4 and 6 give score 50 and
category MODERATE, inside `[0,100]`. -/
theorem c5_calculate_severity_witness :
    (∀ s ∈ [(⟨1, 4⟩ : Observation), ⟨2, 6⟩], 1 ≤ s.severity ∧ s.severity ≤ 10) ∧
    calculateSeverity [(⟨1, 4⟩ : Observation), ⟨2, 6⟩] = (50, SeverityCategory.MODERATE) ∧
    0 ≤ (calculateSeverity [(⟨1, 4⟩ : Observation), ⟨2, 6⟩]).1 ∧
    (calculateSeverity [(⟨1, 4⟩ : Observation), ⟨2, 6⟩]).1 ≤ 100 := by
  have h := c5_calculate_severity [(⟨1, 4⟩ : Observation), ⟨2, 6⟩] (by decide)
  refine ⟨by decide, ?_, h.2.2.1, h.2.2.2⟩
  rw [h.2.1 (by simp)]
  norm_num [round2, round_eq]

/-! ### Training failure (C6) -/

/-- C6: `train` raises `ValueError("No training data available")` exactly when
the assembled feature set is empty — equivalently, when there is no disease
and no eligible historical submission — and in that case it returns before
`save_model`, leaving the persisted store exactly as it was. -/
theorem c6_train_no_data (db : DB) (store : Option SavedBlob) :
    ((train db store).1 = Except.error "No training data available" ↔
      (prepareTrainingData db).1 = []) ∧
    ((prepareTrainingData db).1 = [] ↔ (db.diseases = [] ∧ db.submissions = [])) ∧
    ((prepareTrainingData db).1 = [] → (train db store).2 = store) := by
  have hchar : (prepareTrainingData db).1 = [] ↔ (db.diseases = [] ∧ db.submissions = []) := by
    unfold prepareTrainingData
    simp only [List.append_eq_nil, List.map_eq_nil_iff, List.take_eq_nil_iff]
    constructor
    · rintro ⟨h1, h2 | h2⟩
      · omega
      · exact ⟨h1, h2⟩
    · rintro ⟨h1, h2⟩
      exact ⟨h1, Or.inr h2⟩
  refine ⟨?_, hchar, ?_⟩
  · unfold train
    by_cases h : (prepareTrainingData db).1.length = 0
    · rw [if_pos h]
      simpa using List.length_eq_zero.mp h
    · rw [if_neg h]
      constructor
      · intro he
        exact absurd he (by simp)
      · intro he
        exact absurd (by rw [he]; rfl : (prepareTrainingData db).1.length = 0) h
  · intro h
    unfold train
    rw [if_pos (by rw [h]; rfl)]

/-! ### Persistence round-trip (C7) -/

/-- C7: `save_model` followed by `load_model` restores the model parameters,
label encoding, symptom-slot mapping and trained flag exactly, so predicting
on any input after a persist/restore cycle returns exactly the same diseases
and confidence values as predicting straight after training. -/
theorem c7_persist_restore_roundtrip :
    (∀ st : ModelState, loadModelState (saveModelBlob st) = st) ∧
    (∀ db : DB, (loadModelState (saveModelBlob (trainedState db))).isTrained = true) ∧
    (∀ (db : DB) (sd : List Observation) (k : ℕ),
      nbPredict db (loadModelState (saveModelBlob (trainedState db))) sd k =
        nbPredict db (trainedState db) sd k) :=
  ⟨fun _ => rfl, fun _ => rfl, fun _ _ _ => rfl⟩

/-! ### Unreachable severity default in the rule matcher (C9) -/

/-- C9: the `symptom_severities.get(ds.symptom_id, 5)` default in
`_rule_based_predict` is unreachable: the disease rows being scored are
filtered to the input symptom ids and the severity dict is built from the
same input, so the lookup always finds the caller-supplied severity.
Formally, the matcher's output does not depend on the default at all. -/
theorem c9_severity_default_unreachable (dflt : ℕ) (db : DB) (sd : List Observation)
    (hist : List (ℕ × ℕ)) :
    ruleBasedPredictD dflt db sd hist = ruleBasedPredict db sd hist := by
  unfold ruleBasedPredict ruleBasedPredictD
  congr 1
  apply congrArg
  apply List.filterMap_congr
  intro d _
  unfold scoreDiseaseD
  have hsev : ∀ ds ∈ matchedRows sd d, sevLookupD dflt sd ds.symptomId =
      sevLookupD 5 sd ds.symptomId := by
    intro ds hds
    have hany : sd.any (fun s => s.id == ds.symptomId) := (List.mem_filter.mp hds).2
    obtain ⟨s, hs, hid⟩ := List.any_eq_true.mp hany
    have : (sd.reverse.find? fun s => s.id == ds.symptomId).isSome := by
      rw [List.find?_isSome]
      exact ⟨s, List.mem_reverse.mpr hs, hid⟩
    obtain ⟨x, hx⟩ := Option.isSome_iff_exists.mp this
    unfold sevLookupD
    rw [hx]
    rfl
  by_cases hm : (matchedRows sd d).isEmpty
  · rw [if_pos hm, if_pos hm]
  · rw [if_neg hm, if_neg hm]
    have hws : (matchedRows sd d).map
        (fun ds => (ds.weight : ℚ) * ((sevLookupD dflt sd ds.symptomId : ℚ) / 10)) =
        (matchedRows sd d).map
        (fun ds => (ds.weight : ℚ) * ((sevLookupD 5 sd ds.symptomId : ℚ) / 10)) := by
      apply List.map_congr_left
      intro ds hds
      rw [hsev ds hds]
    rw [hws]

/-! ### Severity auto-fill (C8) -/

theorem foldl_max_self (xs : List ℕ) (a : ℕ) : a ≤ xs.foldl max a := by
  induction xs generalizing a with
  | nil => exact le_refl a
  | cons x rest ih => exact le_trans (le_max_left a x) (ih (max a x))

theorem foldl_max_mem (xs : List ℕ) (a : ℕ) : xs.foldl max a = a ∨ xs.foldl max a ∈ xs := by
  induction xs generalizing a with
  | nil => exact Or.inl rfl
  | cons x rest ih =>
    rcases ih (max a x) with h | h
    · rcases max_choice a x with hm | hm
      · rw [List.foldl_cons, h, hm]
        exact Or.inl rfl
      · rw [List.foldl_cons, h, hm]
        exact Or.inr (List.mem_cons_self x rest)
    · exact Or.inr (List.mem_cons_of_mem x h)

theorem le_foldl_max (xs : List ℕ) (a x : ℕ) (hx : x ∈ xs) : x ≤ xs.foldl max a := by
  induction xs generalizing a with
  | nil => cases hx
  | cons y rest ih =>
    rcases List.mem_cons.mp hx with rfl | h
    · exact le_trans (le_max_right a x) (foldl_max_self rest _)
    · exact ih _ h

theorem listMaxD_mem (l : List ℕ) (d : ℕ) (h : l ≠ []) : listMaxD l d ∈ l := by
  match l with
  | [] => exact absurd rfl h
  | x :: xs =>
    rcases foldl_max_mem xs x with h' | h'
    · rw [listMaxD, h']
      exact List.mem_cons_self x xs
    · exact List.mem_cons_of_mem x h'

theorem le_listMaxD (l : List ℕ) (d : ℕ) (x : ℕ) (hx : x ∈ l) : x ≤ listMaxD l d := by
  match l with
  | [] => cases hx
  | y :: ys =>
    rcases List.mem_cons.mp hx with rfl | h
    · exact foldl_max_self ys x
    · exact le_foldl_max ys y x h

theorem weightRowsFor_bounds {db : DB}
    (hw : ∀ d ∈ db.diseases, ∀ ds ∈ d.diseaseSymptoms, 1 ≤ ds.weight ∧ ds.weight ≤ 10)
    {sid w : ℕ} (hmem : w ∈ weightRowsFor db sid) : 1 ≤ w ∧ w ≤ 10 := by
  unfold weightRowsFor at hmem
  obtain ⟨ds, hds, rfl⟩ := List.mem_map.mp hmem
  have hds' := (List.mem_filter.mp hds).1
  obtain ⟨d, hd, hdm⟩ := List.mem_flatMap.mp hds'
  exact hw d hd ds hdm

/-- C8: when validation accepts a submission, every observation entering the
prediction core is the input observation with an omitted severity replaced by
the highest weight among all `DiseaseSymptom` rows referencing that symptom
(5 when no row references it), and all resulting severities lie in `[1,10]`
whenever the knowledge-base weights do and the caller-provided severities
were validated into `[1,10]`. -/
theorem c8_validate_fills_severity (db : DB) (input : List InputSymptom)
    (out : List Observation)
    (hw : ∀ d ∈ db.diseases, ∀ ds ∈ d.diseaseSymptoms, 1 ≤ ds.weight ∧ ds.weight ≤ 10)
    (hsev : ∀ s ∈ input, ∀ v, s.severity = some v → 1 ≤ v ∧ v ≤ 10)
    (hok : validateSymptoms db input = Except.ok out) :
    out = input.map (fun s => ⟨s.id, fillSeverity db s⟩) ∧
    (∀ s ∈ input, s.severity = none → weightRowsFor db s.id ≠ [] →
      fillSeverity db s ∈ weightRowsFor db s.id ∧
        ∀ w ∈ weightRowsFor db s.id, w ≤ fillSeverity db s) ∧
    (∀ s ∈ input, s.severity = none → weightRowsFor db s.id = [] →
      fillSeverity db s = 5) ∧
    (∀ o ∈ out, 1 ≤ o.severity ∧ o.severity ≤ 10) := by
  have hout : out = input.map (fun s => ⟨s.id, fillSeverity db s⟩) := by
    unfold validateSymptoms at hok
    by_cases h1 : input.isEmpty
    · rw [if_pos h1] at hok
      exact absurd hok (by simp)
    · rw [if_neg h1] at hok
      by_cases h2 : ((input.map (·.id)).dedup.filter fun i => db.symptomIds.contains i).length
          ≠ input.length
      · rw [if_pos h2] at hok
        exact absurd hok (by simp)
      · rw [if_neg h2] at hok
        injection hok with hok
        exact hok.symm
  have hfill : ∀ s ∈ input, s.severity = none → weightRowsFor db s.id ≠ [] →
      fillSeverity db s ∈ weightRowsFor db s.id ∧
        ∀ w ∈ weightRowsFor db s.id, w ≤ fillSeverity db s := by
    intro s _ hnone hne
    unfold fillSeverity
    rw [hnone]
    exact ⟨listMaxD_mem _ _ hne, fun w hw' => le_listMaxD _ _ w hw'⟩
  refine ⟨hout, hfill, ?_, ?_⟩
  · intro s _ hnone hnil
    unfold fillSeverity
    rw [hnone, hnil]
    rfl
  · intro o ho
    rw [hout] at ho
    obtain ⟨s, hs, rfl⟩ := List.mem_map.mp ho
    show 1 ≤ fillSeverity db s ∧ fillSeverity db s ≤ 10
    cases hsv : s.severity with
    | some v =>
      unfold fillSeverity
      rw [hsv]
      exact hsev s hs v hsv
    | none =>
      by_cases hne : weightRowsFor db s.id = []
      · unfold fillSeverity
        rw [hsv, hne]
        exact ⟨by decide, by decide⟩
      · have hmem := (hfill s hs hsv hne).1
        exact weightRowsFor_bounds hw hmem

/-- C8 witness: symptom 1 (referenced with weights 7 and 9) submitted without
a severity is filled with 9; symptom 2's provided severity 4 is kept. -/
theorem c8_validate_fills_severity_witness :
    validateSymptoms ⟨[1, 2], [⟨1, 1, [⟨1, 7⟩, ⟨2, 3⟩]⟩, ⟨2, 2, [⟨1, 9⟩]⟩], []⟩
        [⟨1, none⟩, ⟨2, some 4⟩] = Except.ok [⟨1, 9⟩, ⟨2, 4⟩] ∧
    (∀ o ∈ [(⟨1, 9⟩ : Observation), ⟨2, 4⟩], 1 ≤ o.severity ∧ o.severity ≤ 10) := by
  have h := c8_validate_fills_severity
    ⟨[1, 2], [⟨1, 1, [⟨1, 7⟩, ⟨2, 3⟩]⟩, ⟨2, 2, [⟨1, 9⟩]⟩], []⟩
    [⟨1, none⟩, ⟨2, some 4⟩] [⟨1, 9⟩, ⟨2, 4⟩]
    (by decide) (by decide) (by rfl)
  exact ⟨by rfl, h.2.2.2⟩

/-! ### Stable-sort lemmas -/

theorem sortByConfDesc_perm (l : List Prediction) : (sortByConfDesc l).Perm l := by
  unfold sortByConfDesc
  have h := (List.perm_insertionSort combRel l.enum).map Prod.snd
  rwa [List.enum_map_snd] at h

theorem mem_sortByConfDesc {l : List Prediction} {p : Prediction} :
    p ∈ sortByConfDesc l ↔ p ∈ l :=
  (sortByConfDesc_perm l).mem_iff

theorem sortByConfDesc_pairwise (l : List Prediction) :
    (sortByConfDesc l).Pairwise (fun a b => b.confidence ≤ a.confidence) := by
  unfold sortByConfDesc
  have h := List.sorted_insertionSort combRel l.enum
  apply List.Pairwise.map Prod.snd _ h
  intro a b hab
  rcases hab with h' | ⟨h', _⟩
  · exact h'.le
  · exact h'.ge

/-! ### Rule-based confidence bounds (C4) -/

theorem sum_map_one {α : Type} (l : List α) : (l.map fun _ => (1 : ℚ)).sum = (l.length : ℚ) := by
  induction l with
  | nil => simp
  | cons a l ih =>
    simp only [List.map_cons, List.sum_cons, List.length_cons, ih]
    push_cast
    ring

theorem sevLookupD_bounds {dflt : ℕ} (hdflt : 1 ≤ dflt ∧ dflt ≤ 10) {sd : List Observation}
    (hs : ∀ s ∈ sd, 1 ≤ s.severity ∧ s.severity ≤ 10) (sid : ℕ) :
    1 ≤ sevLookupD dflt sd sid ∧ sevLookupD dflt sd sid ≤ 10 := by
  unfold sevLookupD
  cases hf : sd.reverse.find? (fun s => s.id == sid) with
  | none => exact hdflt
  | some s =>
    have hmem : s ∈ sd := List.mem_reverse.mp (List.mem_of_find?_eq_some hf)
    exact hs s hmem

theorem scoreDiseaseD_bounds {dflt : ℕ} (hdflt : 1 ≤ dflt ∧ dflt ≤ 10)
    {sd : List Observation} {hist : List (ℕ × ℕ)} {d : Disease}
    (hw : ∀ ds ∈ d.diseaseSymptoms, 1 ≤ ds.weight ∧ ds.weight ≤ 10)
    (hs : ∀ s ∈ sd, 1 ≤ s.severity ∧ s.severity ≤ 10)
    {p : Prediction} (h : scoreDiseaseD dflt sd hist d = some p) :
    0 ≤ p.confidence ∧ p.confidence ≤ 100 := by
  unfold scoreDiseaseD at h
  by_cases hm : (matchedRows sd d).isEmpty
  · rw [if_pos hm] at h
    exact absurd h (by simp)
  · rw [if_neg hm] at h
    have hmne : matchedRows sd d ≠ [] := by simpa [List.isEmpty_iff] using hm
    have hmlen : 0 < (matchedRows sd d).length := List.length_pos.mpr hmne
    have hsub : (matchedRows sd d).length ≤ d.diseaseSymptoms.length :=
      List.length_filter_le _ _
    have htot : 0 < (d.diseaseSymptoms.length : ℚ) := by
      have : 0 < d.diseaseSymptoms.length := lt_of_lt_of_le hmlen hsub
      exact_mod_cast this
    set mp : ℚ := ((matchedRows sd d).length : ℚ) / (d.diseaseSymptoms.length : ℚ) * 100 with hmp
    have hmp0 : 0 ≤ mp := by positivity
    have hmp100 : mp ≤ 100 := by
      rw [hmp]
      have hle : ((matchedRows sd d).length : ℚ) / (d.diseaseSymptoms.length : ℚ) ≤ 1 := by
        rw [div_le_one htot]
        exact_mod_cast hsub
      nlinarith
    set ws : ℚ :=
      ((matchedRows sd d).map fun ds =>
        (ds.weight : ℚ) * ((sevLookupD dflt sd ds.symptomId : ℚ) / 10)).sum with hws
    set mw : ℚ := ((matchedRows sd d).map fun ds => (ds.weight : ℚ)).sum with hmw
    have hws0 : 0 ≤ ws := by
      rw [hws]
      apply List.sum_nonneg
      intro x hx
      obtain ⟨ds, _, rfl⟩ := List.mem_map.mp hx
      positivity
    have hwsle : ws ≤ mw := by
      rw [hws, hmw]
      apply List.sum_le_sum
      intro ds hds
      have hsev := sevLookupD_bounds hdflt hs ds.symptomId
      have hsev10 : ((sevLookupD dflt sd ds.symptomId : ℕ) : ℚ) ≤ 10 := by
        exact_mod_cast hsev.2
      have hw0 : (0 : ℚ) ≤ (ds.weight : ℚ) := by positivity
      nlinarith
    have hmw1 : (1 : ℚ) ≤ mw := by
      rw [hmw]
      have h1 : ((matchedRows sd d).map fun _ => (1 : ℚ)).sum ≤
          ((matchedRows sd d).map fun ds => (ds.weight : ℚ)).sum := by
        apply List.sum_le_sum
        intro ds hds
        have := (hw ds (List.mem_of_mem_filter hds)).1
        exact_mod_cast this
      rw [sum_map_one] at h1
      have : (1 : ℚ) ≤ ((matchedRows sd d).length : ℚ) := by exact_mod_cast hmlen
      linarith
    have hmw0 : 0 < mw := lt_of_lt_of_le one_pos hmw1
    set wp : ℚ := if 0 < mw then ws / mw * 100 else 0 with hwp
    have hwp0 : 0 ≤ wp := by
      rw [hwp, if_pos hmw0]
      positivity
    have hwp100 : wp ≤ 100 := by
      rw [hwp, if_pos hmw0]
      have : ws / mw ≤ 1 := by
        rw [div_le_one hmw0]
        exact hwsle
      nlinarith
    set conf : ℚ := mp * (4/10) + wp * (6/10) with hconf
    have hc0 : 0 ≤ conf := by rw [hconf]; positivity
    have hc100 : conf ≤ 100 := by rw [hconf]; nlinarith
    have hfinal : 0 ≤ p.confidence ∧ p.confidence ≤ 100 := by
      cases hh : historyLookup hist d.id with
      | none =>
        rw [hh] at h
        injection h with h
        subst h
        exact ⟨round2_nonneg hc0, round2_le_hundred hc100⟩
      | some cnt =>
        rw [hh] at h
        injection h with h
        subst h
        have hb0 : (0 : ℚ) ≤ min ((cnt : ℚ) * 3) 15 := le_min (by positivity) (by norm_num)
        have h0 : 0 ≤ min (conf + min ((cnt : ℚ) * 3) 15) 100 :=
          le_min (by linarith) (by norm_num)
        have h100 : min (conf + min ((cnt : ℚ) * 3) 15) 100 ≤ 100 := min_le_right _ _
        exact ⟨round2_nonneg h0, round2_le_hundred h100⟩
    exact hfinal

/-- C4: for severities in `[1,10]`, knowledge-base weights in `[1,10]` and any
user history, every confidence returned by `_rule_based_predict` lies in
`[0,100]`, the personalization bonus `min(count × 3, 15)` included: the sum is
clamped at 100. -/
theorem c4_rule_confidence_in_range (db : DB) (sd : List Observation)
    (hist : List (ℕ × ℕ))
    (hw : ∀ d ∈ db.diseases, ∀ ds ∈ d.diseaseSymptoms, 1 ≤ ds.weight ∧ ds.weight ≤ 10)
    (hs : ∀ s ∈ sd, 1 ≤ s.severity ∧ s.severity ≤ 10) :
    ∀ p ∈ ruleBasedPredict db sd hist, 0 ≤ p.confidence ∧ p.confidence ≤ 100 := by
  intro p hp
  unfold ruleBasedPredict ruleBasedPredictD at hp
  have hp2 : p ∈ sortByConfDesc (db.diseases.filterMap (scoreDiseaseD 5 sd hist)) :=
    ((List.take_sublist 5 _).mem hp)
  have hp3 : p ∈ db.diseases.filterMap (scoreDiseaseD 5 sd hist) :=
    mem_sortByConfDesc.mp hp2
  obtain ⟨d, hd, hscore⟩ := List.mem_filterMap.mp hp3
  exact scoreDiseaseD_bounds (by norm_num) (hw d hd) hs hscore

/-- C4 witness: a database with one disease carrying weights 8 and 6,
observations of severities 10 and 3, and a history entry granting the bonus. -/
theorem c4_rule_confidence_in_range_witness :
    (∀ d ∈ [(⟨1, 1, [⟨1, 8⟩, ⟨2, 6⟩]⟩ : Disease)], ∀ ds ∈ d.diseaseSymptoms,
      1 ≤ ds.weight ∧ ds.weight ≤ 10) ∧
    (∀ s ∈ [(⟨1, 10⟩ : Observation), ⟨2, 3⟩], 1 ≤ s.severity ∧ s.severity ≤ 10) ∧
    ∀ p ∈ ruleBasedPredict ⟨[1, 2], [⟨1, 1, [⟨1, 8⟩, ⟨2, 6⟩]⟩], []⟩
        [(⟨1, 10⟩ : Observation), ⟨2, 3⟩] [(1, 2)],
      0 ≤ p.confidence ∧ p.confidence ≤ 100 :=
  ⟨by decide, by decide,
    c4_rule_confidence_in_range ⟨[1, 2], [⟨1, 1, [⟨1, 8⟩, ⟨2, 6⟩]⟩], []⟩
      [(⟨1, 10⟩ : Observation), ⟨2, 3⟩] [(1, 2)] (by decide) (by decide)⟩

/-! ### Classifier ranking (C2) -/

theorem mem_sortedEnum {p : List ℚ} {x : ℕ × ℚ}
    (hx : x ∈ List.insertionSort probRelAsc p.enum) :
    x.1 < p.length ∧ x.2 = p.getD x.1 0 := by
  have hmem : x ∈ p.enum := (List.perm_insertionSort probRelAsc p.enum).mem_iff.mp hx
  obtain ⟨i, v⟩ := x
  have h := List.mem_enum hmem
  refine ⟨h.1, ?_⟩
  rw [List.getD_eq_getElem?_getD, List.getElem?_eq_getElem h.1]
  exact h.2

theorem topKIndices_eq (p : List ℚ) (k : ℕ) :
    topKIndices p k = ((List.insertionSort probRelAsc p.enum).drop
      (if k = 0 then 0 else p.length - k)).reverse.map Prod.fst := by
  unfold topKIndices argsortAsc
  rw [List.map_reverse, List.map_drop]

theorem topKIndices_pairwise (p : List ℚ) (k : ℕ) :
    (topKIndices p k).Pairwise
      (fun i j => p.getD j 0 < p.getD i 0 ∨ (p.getD i 0 = p.getD j 0 ∧ j ≤ i)) := by
  rw [topKIndices_eq]
  have hsorted := List.sorted_insertionSort probRelAsc p.enum
  have hdrop : ((List.insertionSort probRelAsc p.enum).drop
      (if k = 0 then 0 else p.length - k)).Pairwise probRelAsc := hsorted.drop
  have hrev := List.pairwise_reverse.mpr hdrop
  have hrev2 : (((List.insertionSort probRelAsc p.enum).drop
      (if k = 0 then 0 else p.length - k)).reverse).Pairwise
      (fun a b : ℕ × ℚ =>
        p.getD b.1 0 < p.getD a.1 0 ∨ (p.getD a.1 0 = p.getD b.1 0 ∧ b.1 ≤ a.1)) := by
    apply hrev.imp_of_mem
    intro a b ha hb hab
    have hmem : ∀ x : ℕ × ℚ, x ∈ ((List.insertionSort probRelAsc p.enum).drop
        (if k = 0 then 0 else p.length - k)).reverse → x.2 = p.getD x.1 0 := by
      intro x hx
      exact (mem_sortedEnum ((List.drop_sublist _ _).mem (List.mem_reverse.mp hx))).2
    have hva := hmem a ha
    have hvb := hmem b hb
    rcases hab with h | ⟨h, h'⟩
    · exact Or.inl (by rw [← hva, ← hvb]; exact h)
    · exact Or.inr ⟨by rw [← hva, ← hvb, h], h'⟩
  exact List.Pairwise.map Prod.fst (fun a b h => h) hrev2

theorem topKIndices_top (p : List ℚ) (k : ℕ) :
    ∀ i ∈ topKIndices p k, ∀ j < p.length, j ∉ topKIndices p k →
      p.getD j 0 < p.getD i 0 ∨ (p.getD j 0 = p.getD i 0 ∧ j ≤ i) := by
  intro i hi j hj hjnot
  rw [topKIndices_eq] at hi hjnot
  obtain ⟨b, hbrev, rfl⟩ := List.mem_map.mp hi
  have hbdrop : b ∈ (List.insertionSort probRelAsc p.enum).drop
      (if k = 0 then 0 else p.length - k) := List.mem_reverse.mp hbrev
  have hjA : j ∈ (List.insertionSort probRelAsc p.enum).map Prod.fst := by
    have hperm : ((List.insertionSort probRelAsc p.enum).map Prod.fst).Perm
        (List.range p.length) := by
      have := (List.perm_insertionSort probRelAsc p.enum).map Prod.fst
      rwa [List.enum_map_fst] at this
    exact hperm.mem_iff.mpr (List.mem_range.mpr hj)
  have hsplit : (List.insertionSort probRelAsc p.enum).map Prod.fst =
      ((List.insertionSort probRelAsc p.enum).take
        (if k = 0 then 0 else p.length - k)).map Prod.fst ++
      ((List.insertionSort probRelAsc p.enum).drop
        (if k = 0 then 0 else p.length - k)).map Prod.fst := by
    rw [← List.map_append, List.take_append_drop]
  rw [hsplit] at hjA
  rcases List.mem_append.mp hjA with hjtake | hjdrop
  · obtain ⟨a, hatake, rfl⟩ := List.mem_map.mp hjtake
    have hpair : ∀ x ∈ (List.insertionSort probRelAsc p.enum).take
        (if k = 0 then 0 else p.length - k),
        ∀ y ∈ (List.insertionSort probRelAsc p.enum).drop
          (if k = 0 then 0 else p.length - k), probRelAsc x y := by
      have hsorted := List.sorted_insertionSort probRelAsc p.enum
      have : ((List.insertionSort probRelAsc p.enum).take
          (if k = 0 then 0 else p.length - k) ++
          (List.insertionSort probRelAsc p.enum).drop
          (if k = 0 then 0 else p.length - k)).Pairwise probRelAsc := by
        rw [List.take_append_drop]
        exact hsorted
      exact (List.pairwise_append.mp this).2.2
    have hab := hpair a hatake b hbdrop
    have hva : a.2 = p.getD a.1 0 :=
      (mem_sortedEnum ((List.take_sublist _ _).mem hatake)).2
    have hvb : b.2 = p.getD b.1 0 :=
      (mem_sortedEnum ((List.drop_sublist _ _).mem hbdrop)).2
    rcases hab with h | ⟨h, h'⟩
    · exact Or.inl (by rw [← hva, ← hvb]; exact h)
    · exact Or.inr ⟨by rw [← hva, ← hvb, h], h'⟩
  · exfalso
    apply hjnot
    obtain ⟨a, hadrop, rfl⟩ := List.mem_map.mp hjdrop
    exact List.mem_map_of_mem Prod.fst (List.mem_reverse.mpr hadrop)

/-- C2 (amended): for every trained model and input vector, `predict` returns
the top-k classes ordered by posterior probability descending, but whenever
two classes have equal posterior probability the class with the HIGHER
original class index is placed first (`np.argsort` ascending is stable, and
the `[::-1]` reversal flips the tie order); the selected indices beat every
non-selected index, and the emitted confidence list is likewise
non-increasing. -/
theorem c2_predict_descending_ties_higher_first (m : FittedNB) (v : List ℕ) (k : ℕ) :
    (topKIndices (nbProba m v) k).Pairwise
      (fun i j => (nbProba m v).getD j 0 < (nbProba m v).getD i 0 ∨
        ((nbProba m v).getD i 0 = (nbProba m v).getD j 0 ∧ j ≤ i)) ∧
    (∀ i ∈ topKIndices (nbProba m v) k, ∀ j < (nbProba m v).length,
      j ∉ topKIndices (nbProba m v) k →
        (nbProba m v).getD j 0 < (nbProba m v).getD i 0 ∨
          ((nbProba m v).getD j 0 = (nbProba m v).getD i 0 ∧ j ≤ i)) ∧
    (∀ (db : DB) (st : ModelState) (sd : List Observation) (kk : ℕ),
      (nbPredict db st sd kk).Pairwise fun a b => b.confidence ≤ a.confidence) := by
  refine ⟨topKIndices_pairwise _ k, topKIndices_top _ k, ?_⟩
  intro db st sd kk
  unfold nbPredict
  apply List.Pairwise.filterMap _ _ (topKIndices_pairwise _ kk)
  intro i j hij a ha b hb
  have hconf : ∀ (x : ℕ) (c : Prediction),
      c ∈ (match db.diseases.find? (fun d => d.name == st.labelClasses.getD x 0) with
        | some d => some (⟨d.id, round2
            ((nbProba st.model (buildFeatureVector st.symptomEncoder
              (sd.map fun s : Observation => (s.id, s.severity)))).getD x 0 * 100)⟩ : Prediction)
        | none => none) →
      c.confidence = round2
        ((nbProba st.model (buildFeatureVector st.symptomEncoder
          (sd.map fun s : Observation => (s.id, s.severity)))).getD x 0 * 100) := by
    intro x c hc
    cases hfind : db.diseases.find? (fun d => d.name == st.labelClasses.getD x 0) with
    | none => rw [hfind] at hc; cases hc
    | some d =>
      rw [hfind] at hc
      cases hc
      rfl
  rw [hconf i a ha, hconf j b hb]
  apply round2_le_round2
  rcases hij with h | ⟨h, _⟩
  · nlinarith
  · rw [h]

/-- C2, counterexample to the tie-break as stated: training on two diseases
(names 1 < 2) with identical weight rows gives equal posteriors 1/2, yet
`predict` returns class index 1 (disease 2) before class index 0 (disease 1):
on ties the HIGHER class index comes first, not the lower. -/
theorem c2_tie_break_counterexample :
    nbProba (trainedState ⟨[1], [⟨1, 1, [⟨1, 5⟩]⟩, ⟨2, 2, [⟨1, 5⟩]⟩], []⟩).model [5]
      = [1/2, 1/2] ∧
    topKIndices [1/2, 1/2] 3 = [1, 0] ∧
    nbPredict ⟨[1], [⟨1, 1, [⟨1, 5⟩]⟩, ⟨2, 2, [⟨1, 5⟩]⟩], []⟩
        (trainedState ⟨[1], [⟨1, 1, [⟨1, 5⟩]⟩, ⟨2, 2, [⟨1, 5⟩]⟩], []⟩) [⟨1, 5⟩] 3 =
      [⟨2, 50⟩, ⟨1, 50⟩] := by
  refine ⟨?_, ?_, ?_⟩
  · have hm : (trainedState ⟨[1], [⟨1, 1, [⟨1, 5⟩]⟩, ⟨2, 2, [⟨1, 5⟩]⟩], []⟩).model =
        ⟨[1, 1], [[5], [5]]⟩ := by decide
    rw [hm]
    norm_num [nbProba, thetaProd]
  · norm_num [topKIndices, argsortAsc, List.insertionSort, List.orderedInsert, probRelAsc,
      List.enum, List.enumFrom]
  · norm_num [nbPredict, trainedState, prepareTrainingData, diseaseVector, buildFeatureVector,
      setSlot, findSlot, classesOf, fitNB, vecSum, nbProba, thetaProd, topKIndices, argsortAsc,
      List.insertionSort, List.orderedInsert, probRelAsc, List.enum, List.enumFrom, round2,
      List.filterMap, List.find?, round_eq]
    decide

/-! ### Combiner dict characterization (C3, C10) -/

theorem foldl_addML_eq (ml : List Prediction) :
    ∀ acc : List CombEntry, (∀ p ∈ ml, ∀ e ∈ acc, e.1 ≠ p.diseaseId) →
      (ml.map (·.diseaseId)).Nodup →
      ml.foldl addML acc = acc ++ ml.map (fun p => (p.diseaseId, p.confidence, 0)) := by
  induction ml with
  | nil => intro acc _ _; simp
  | cons p rest ih =>
    intro acc hdisj hnd
    have hnd' : (∀ x ∈ rest, ¬x.diseaseId = p.diseaseId) ∧
        (rest.map (·.diseaseId)).Nodup := by simpa using hnd
    rw [List.foldl_cons]
    have hany : ¬ acc.any (fun e => e.1 == p.diseaseId) = true := by
      rw [List.any_eq_true]
      rintro ⟨e, he, hbe⟩
      exact hdisj p (List.mem_cons_self p rest) e he (by simpa using hbe)
    rw [addML, if_neg hany]
    rw [ih (acc ++ [(p.diseaseId, p.confidence, 0)]) ?_ ?_]
    · simp
    · intro q hq e he
      rcases List.mem_append.mp he with he | he
      · exact hdisj q (List.mem_cons_of_mem p hq) e he
      · have heq : e = (p.diseaseId, p.confidence, 0) := by simpa using he
        subst heq
        intro hcontra
        exact hnd'.1 q hq hcontra.symm
    · exact hnd'.2


theorem list_any_congr {α : Type} {p q : α → Bool} {l : List α}
    (h : ∀ a ∈ l, p a = q a) : l.any p = l.any q := by
  rw [Bool.eq_iff_iff, List.any_eq_true, List.any_eq_true]
  constructor
  · rintro ⟨a, ha, hpa⟩
    exact ⟨a, ha, (h a ha) ▸ hpa⟩
  · rintro ⟨a, ha, hqa⟩
    exact ⟨a, ha, (h a ha).symm ▸ hqa⟩

theorem foldl_addRule_eq (rule : List Prediction) :
    ∀ acc : List CombEntry, (rule.map (·.diseaseId)).Nodup →
      rule.foldl addRule acc =
        acc.map (fun e =>
          ((rule.find? (fun q => q.diseaseId == e.1)).map
            (fun q => (e.1, e.2.1, q.confidence))).getD e) ++
        (rule.filter (fun q => !(acc.any (fun e => e.1 == q.diseaseId)))).map
          (fun q => (q.diseaseId, 0, q.confidence)) := by
  induction rule with
  | nil => intro acc _; simp
  | cons p rest ih =>
    intro acc hnd
    have hnd' : (∀ x ∈ rest, ¬x.diseaseId = p.diseaseId) ∧
        (rest.map (·.diseaseId)).Nodup := by simpa using hnd
    have hfindp : ∀ z : ℕ, z = p.diseaseId →
        rest.find? (fun q => q.diseaseId == z) = none := by
      intro z hz
      rw [List.find?_eq_none]
      intro q hq hbq
      exact hnd'.1 q hq (by rw [← hz]; simpa using hbq)
    rw [List.foldl_cons]
    by_cases hin : acc.any (fun e => e.1 == p.diseaseId) = true
    · rw [addRule, if_pos hin, ih _ hnd'.2]
      congr 1
      · rw [List.map_map]
        apply List.map_congr_left
        intro e _
        simp only [Function.comp_apply]
        by_cases he : e.1 = p.diseaseId
        · rw [if_pos (by simpa using he)]
          have h2 : rest.find? (fun q => q.diseaseId == e.1) = none := hfindp e.1 he
          have h1 : (p :: rest).find? (fun q => q.diseaseId == e.1) = some p :=
            List.find?_cons_of_pos _ (by simpa using he.symm)
          rw [h1]
          show ((rest.find? fun q => q.diseaseId == e.1).map
            (fun q => (e.1, e.2.1, q.confidence))).getD (e.1, e.2.1, p.confidence) =
            (e.1, e.2.1, p.confidence)
          rw [h2]
          rfl
        · rw [if_neg (by simpa using he)]
          have h1 : (p :: rest).find? (fun q => q.diseaseId == e.1) =
              rest.find? (fun q => q.diseaseId == e.1) :=
            List.find?_cons_of_neg _ (by simpa using fun h => he h.symm)
          rw [h1]
      · have hfilter : (p :: rest).filter
            (fun q => !(acc.any (fun e => e.1 == q.diseaseId))) =
            rest.filter (fun q => !(acc.any (fun e => e.1 == q.diseaseId))) :=
          List.filter_cons_of_neg (by simp [hin])
        rw [hfilter]
        apply congrArg
        apply List.filter_congr
        intro q _
        apply congrArg
        rw [List.any_map]
        apply list_any_congr
        intro e _
        simp only [Function.comp_apply]
        by_cases he : e.1 = p.diseaseId
        · rw [if_pos (by simpa using he)]
        · rw [if_neg (by simpa using he)]
    · rw [addRule, if_neg hin, ih _ hnd'.2]
      have haccne : ∀ e ∈ acc, ¬ e.1 = p.diseaseId := by
        intro e he hcontra
        exact hin (List.any_eq_true.mpr ⟨e, he, by simpa using hcontra⟩)
      have hlast : ([(p.diseaseId, (0 : ℚ), p.confidence)].map (fun e =>
          ((rest.find? (fun q => q.diseaseId == e.1)).map
            (fun q => (e.1, e.2.1, q.confidence))).getD e)) =
          [(p.diseaseId, 0, p.confidence)] := by
        simp only [List.map_cons, List.map_nil]
        rw [hfindp p.diseaseId rfl]
        rfl
      have hmapeq : acc.map (fun e =>
          ((rest.find? (fun q => q.diseaseId == e.1)).map
            (fun q => (e.1, e.2.1, q.confidence))).getD e) =
          acc.map (fun e =>
          (((p :: rest).find? (fun q => q.diseaseId == e.1)).map
            (fun q => (e.1, e.2.1, q.confidence))).getD e) := by
        apply List.map_congr_left
        intro e he
        have h1 : (p :: rest).find? (fun q => q.diseaseId == e.1) =
            rest.find? (fun q => q.diseaseId == e.1) :=
          List.find?_cons_of_neg _ (by simpa using fun h => (haccne e he) h.symm)
        rw [h1]
      have hfilter2 : rest.filter (fun q =>
          !((acc ++ [(p.diseaseId, (0 : ℚ), p.confidence)]).any
            (fun e => e.1 == q.diseaseId))) =
          rest.filter (fun q => !(acc.any (fun e => e.1 == q.diseaseId))) := by
        apply List.filter_congr
        intro q hq
        have hne : ¬ (p.diseaseId == q.diseaseId) = true := by
          simpa using fun h => hnd'.1 q hq h.symm
        simp [List.any_append, hne]
      have hfilter : (p :: rest).filter
          (fun q => !(acc.any (fun e => e.1 == q.diseaseId))) =
          p :: rest.filter (fun q => !(acc.any (fun e => e.1 == q.diseaseId))) :=
        List.filter_cons_of_pos (by simp [hin])
      rw [List.map_append, hlast, hmapeq, hfilter2, hfilter]
      simp [List.append_assoc]

theorem list_any_map {α β : Type} (f : α → β) (l : List α) (p : β → Bool) :
    (l.map f).any p = l.any (fun a => p (f a)) := by
  induction l with
  | nil => rfl
  | cons a rest ih => simp [ih]

theorem combinedTable_eq (ml rule : List Prediction)
    (hml : (ml.map (·.diseaseId)).Nodup) (hrule : (rule.map (·.diseaseId)).Nodup) :
    combinedTable ml rule =
      ml.map (fun p => (p.diseaseId, p.confidence, confOf rule p.diseaseId)) ++
      (rule.filter (fun q => !(ml.any (fun p => p.diseaseId == q.diseaseId)))).map
        (fun q => (q.diseaseId, 0, q.confidence)) := by
  unfold combinedTable
  rw [foldl_addML_eq ml [] (by intro p _ e he; cases he) hml, List.nil_append,
    foldl_addRule_eq rule _ hrule]
  congr 1
  · rw [List.map_map]
    apply List.map_congr_left
    intro p _
    simp only [Function.comp_apply]
    unfold confOf
    cases hf : rule.find? (fun q => q.diseaseId == p.diseaseId) with
    | none => rfl
    | some q => rfl
  · apply congrArg
    apply List.filter_congr
    intro q _
    apply congrArg
    rw [list_any_map]

/-- C3: for input lists carrying distinct diseases (as both always do — each
comes out of a dict/queryset keyed by disease), `_combine_predictions` scores
each disease of the union (ML list first, then the rule-only diseases in
rule-list order) as `round2(0.6 × ml + 0.4 × rule)` with a missing side
counting as 0, stably sorts the result descending by that score — `combRel`
breaks ties by first-encountered position — and the hybrid prediction keeps
at most the top 3. -/
theorem c3_combiner_weighted_union (ml rule : List Prediction)
    (hml : (ml.map (·.diseaseId)).Nodup) (hrule : (rule.map (·.diseaseId)).Nodup) :
    combinePredictions ml rule =
      sortByConfDesc
        (ml.map (fun p => ⟨p.diseaseId,
            round2 (p.confidence * (6/10) + confOf rule p.diseaseId * (4/10))⟩) ++
         (rule.filter (fun q => !(ml.any (fun p => p.diseaseId == q.diseaseId)))).map
          (fun q => ⟨q.diseaseId, round2 ((0 : ℚ) * (6/10) + q.confidence * (4/10))⟩)) ∧
    (combinePredictions ml rule).Perm
      (ml.map (fun p => ⟨p.diseaseId,
          round2 (p.confidence * (6/10) + confOf rule p.diseaseId * (4/10))⟩) ++
       (rule.filter (fun q => !(ml.any (fun p => p.diseaseId == q.diseaseId)))).map
        (fun q => ⟨q.diseaseId, round2 ((0 : ℚ) * (6/10) + q.confidence * (4/10))⟩)) ∧
    (combinePredictions ml rule).Pairwise (fun a b => b.confidence ≤ a.confidence) ∧
    (∀ (db : DB) (st : ModelState) (sd : List Observation) (hist : List (ℕ × ℕ)),
      (hybridPredict db st sd hist).length ≤ 3) := by
  have h1 : combinePredictions ml rule =
      sortByConfDesc
        (ml.map (fun p => ⟨p.diseaseId,
            round2 (p.confidence * (6/10) + confOf rule p.diseaseId * (4/10))⟩) ++
         (rule.filter (fun q => !(ml.any (fun p => p.diseaseId == q.diseaseId)))).map
          (fun q => ⟨q.diseaseId, round2 ((0 : ℚ) * (6/10) + q.confidence * (4/10))⟩)) := by
    unfold combinePredictions
    rw [combinedTable_eq ml rule hml hrule, List.map_append, List.map_map, List.map_map]
    rfl
  refine ⟨h1, ?_, ?_, ?_⟩
  · rw [h1]
    exact sortByConfDesc_perm _
  · unfold combinePredictions
    exact sortByConfDesc_pairwise _
  · intro db st sd hist
    unfold hybridPredict
    rw [List.length_take]
    exact min_le_left _ _

/-- C3 witness: the combiner theorem at `ml = [(1, 80)]`, `rule = [(2, 40)]`. -/
theorem c3_combiner_weighted_union_witness :
    (([(⟨1, 80⟩ : Prediction)].map (·.diseaseId)).Nodup) ∧
    (([(⟨2, 40⟩ : Prediction)].map (·.diseaseId)).Nodup) ∧
    (combinePredictions [⟨1, 80⟩] [⟨2, 40⟩] =
      sortByConfDesc
        ([(⟨1, 80⟩ : Prediction)].map (fun p => ⟨p.diseaseId,
            round2 (p.confidence * (6/10) + confOf [⟨2, 40⟩] p.diseaseId * (4/10))⟩) ++
         ([(⟨2, 40⟩ : Prediction)].filter (fun q => !([(⟨1, 80⟩ : Prediction)].any
            (fun p => p.diseaseId == q.diseaseId)))).map
          (fun q => ⟨q.diseaseId, round2 ((0 : ℚ) * (6/10) + q.confidence * (4/10))⟩))) ∧
    (combinePredictions [⟨1, 80⟩] [⟨2, 40⟩]).Pairwise
      (fun a b => b.confidence ≤ a.confidence) := by
  have h := c3_combiner_weighted_union [⟨1, 80⟩] [⟨2, 40⟩] (by decide) (by decide)
  exact ⟨by decide, by decide, h.1, h.2.2.1⟩

theorem find?_diseaseId_self {l : List Prediction} (hnd : (l.map (·.diseaseId)).Nodup)
    {p : Prediction} (hp : p ∈ l) :
    l.find? (fun q => q.diseaseId == p.diseaseId) = some p := by
  induction l with
  | nil => cases hp
  | cons a rest ih =>
    have hnd' : (∀ x ∈ rest, ¬x.diseaseId = a.diseaseId) ∧
        (rest.map (·.diseaseId)).Nodup := by simpa using hnd
    rcases List.mem_cons.mp hp with rfl | hp'
    · exact List.find?_cons_of_pos _ (by simp)
    · have hne : ¬ (a.diseaseId == p.diseaseId) = true := by
        simpa using fun h => hnd'.1 p hp' h.symm
      exact (List.find?_cons_of_neg rest hne).trans (ih hnd'.2 hp')

theorem confOf_eq_of_mem {l : List Prediction} (hnd : (l.map (·.diseaseId)).Nodup)
    {p : Prediction} (hp : p ∈ l) : confOf l p.diseaseId = p.confidence := by
  unfold confOf
  rw [find?_diseaseId_self hnd hp]
  rfl

theorem confOf_eq_zero {l : List Prediction} {k : ℕ} (h : ∀ p ∈ l, ¬ p.diseaseId = k) :
    confOf l k = 0 := by
  unfold confOf
  rw [List.find?_eq_none.mpr (by intro p hp; simpa using h p hp)]
  rfl

theorem confOf_bounds {l : List Prediction}
    (hl : ∀ p ∈ l, 0 ≤ p.confidence ∧ p.confidence ≤ 100 ∧ ∃ m : ℤ, p.confidence = m / 100)
    (k : ℕ) :
    0 ≤ confOf l k ∧ confOf l k ≤ 100 ∧ ∃ m : ℤ, confOf l k = m / 100 := by
  unfold confOf
  cases hf : l.find? (fun q => q.diseaseId == k) with
  | none => exact ⟨le_refl 0, by norm_num, ⟨0, by norm_num⟩⟩
  | some p => exact hl p (List.mem_of_find?_eq_some hf)

theorem weighted_round_bounds {a b : ℚ}
    (ha : 0 ≤ a ∧ a ≤ 100 ∧ ∃ m : ℤ, a = m / 100)
    (hb : 0 ≤ b ∧ b ≤ 100 ∧ ∃ m : ℤ, b = m / 100) :
    (0 ≤ round2 (a * (6/10) + b * (4/10)) ∧ round2 (a * (6/10) + b * (4/10)) ≤ 100) ∧
    min a b ≤ round2 (a * (6/10) + b * (4/10)) ∧
    round2 (a * (6/10) + b * (4/10)) ≤ max a b := by
  have hminw : min a b ≤ a * (6/10) + b * (4/10) := by
    rcases le_total a b with h | h
    · rw [min_eq_left h]; linarith
    · rw [min_eq_right h]; linarith
  have hwmax : a * (6/10) + b * (4/10) ≤ max a b := by
    rcases le_total a b with h | h
    · rw [max_eq_right h]; linarith
    · rw [max_eq_left h]; linarith
  have hmin2dp : ∃ m : ℤ, min a b = m / 100 := by
    rcases min_choice a b with h | h <;> rw [h]
    · exact ha.2.2
    · exact hb.2.2
  have hmax2dp : ∃ m : ℤ, max a b = m / 100 := by
    rcases max_choice a b with h | h <;> rw [h]
    · exact ha.2.2
    · exact hb.2.2
  obtain ⟨mn, hmn⟩ := hmin2dp
  obtain ⟨mx, hmx⟩ := hmax2dp
  have h1 : min a b ≤ round2 (a * (6/10) + b * (4/10)) := by
    have := round2_le_round2 hminw
    rwa [hmn, round2_intMul, ← hmn] at this
  have h2 : round2 (a * (6/10) + b * (4/10)) ≤ max a b := by
    have := round2_le_round2 hwmax
    rwa [hmx, round2_intMul, ← hmx] at this
  refine ⟨⟨?_, ?_⟩, h1, h2⟩
  · exact le_trans (le_min ha.1 hb.1) h1
  · exact le_trans h2 (max_le ha.2.1 hb.2.1)

/-- C10 (amended): when both lists carry distinct diseases and every input
confidence lies in `[0,100]` and is an integer multiple of 0.01 — as every
upstream confidence is, having been rounded to 2 decimals — each combined
confidence `round2(0.6·ml + 0.4·rule)` lies between that disease's two input
confidences (the missing side counting as 0), and in particular in
`[0,100]`. -/
theorem c10_combined_confidence_bounds (ml rule : List Prediction)
    (hml : (ml.map (·.diseaseId)).Nodup) (hrule : (rule.map (·.diseaseId)).Nodup)
    (hmlc : ∀ p ∈ ml, 0 ≤ p.confidence ∧ p.confidence ≤ 100 ∧ ∃ m : ℤ, p.confidence = m / 100)
    (hrulec : ∀ p ∈ rule,
      0 ≤ p.confidence ∧ p.confidence ≤ 100 ∧ ∃ m : ℤ, p.confidence = m / 100) :
    ∀ q ∈ combinePredictions ml rule,
      (0 ≤ q.confidence ∧ q.confidence ≤ 100) ∧
      min (confOf ml q.diseaseId) (confOf rule q.diseaseId) ≤ q.confidence ∧
      q.confidence ≤ max (confOf ml q.diseaseId) (confOf rule q.diseaseId) := by
  intro q hq
  have hq2 : q ∈ (combinedTable ml rule).map (fun e =>
      (⟨e.1, round2 (e.2.1 * (6/10) + e.2.2 * (4/10))⟩ : Prediction)) := by
    have := mem_sortByConfDesc.mp hq
    exact this
  rw [combinedTable_eq ml rule hml hrule, List.map_append] at hq2
  rcases List.mem_append.mp hq2 with hcase | hcase
  · rw [List.map_map] at hcase
    obtain ⟨p, hp, rfl⟩ := List.mem_map.mp hcase
    simp only [Function.comp_apply]
    have hmc : confOf ml p.diseaseId = p.confidence := confOf_eq_of_mem hml hp
    have hrc := confOf_bounds hrulec p.diseaseId
    have hac : 0 ≤ p.confidence ∧ p.confidence ≤ 100 ∧ ∃ m : ℤ, p.confidence = m / 100 :=
      hmlc p hp
    have hw := weighted_round_bounds hac hrc
    rw [hmc]
    exact ⟨hw.1, hw.2.1, hw.2.2⟩
  · rw [List.map_map] at hcase
    obtain ⟨p, hp, rfl⟩ := List.mem_map.mp hcase
    simp only [Function.comp_apply]
    have hpmem : p ∈ rule := List.mem_of_mem_filter hp
    have hnotml : ∀ p' ∈ ml, ¬ p'.diseaseId = p.diseaseId := by
      have hfilt := (List.mem_filter.mp hp).2
      intro p' hp' hcontra
      have : ml.any (fun r => r.diseaseId == p.diseaseId) = true :=
        List.any_eq_true.mpr ⟨p', hp', by simpa using hcontra⟩
      rw [this] at hfilt
      cases hfilt
    have hmc : confOf ml p.diseaseId = 0 := confOf_eq_zero hnotml
    have hrc : confOf rule p.diseaseId = p.confidence := confOf_eq_of_mem hrule hpmem
    have hzero : (0 : ℚ) ≤ 0 ∧ (0 : ℚ) ≤ 100 ∧ ∃ m : ℤ, (0 : ℚ) = m / 100 :=
      ⟨le_refl 0, by norm_num, ⟨0, by norm_num⟩⟩
    have hw := weighted_round_bounds hzero (hrulec p hpmem)
    rw [hmc, hrc]
    exact ⟨hw.1, hw.2.1, hw.2.2⟩

/-- C10 witness: the bounds theorem at `ml = [(1, 80)]`, `rule = [(1, 50)]`. -/
theorem c10_combined_confidence_bounds_witness :
    (([(⟨1, 80⟩ : Prediction)].map (·.diseaseId)).Nodup) ∧
    (([(⟨1, 50⟩ : Prediction)].map (·.diseaseId)).Nodup) ∧
    (∀ p ∈ [(⟨1, 80⟩ : Prediction)],
      0 ≤ p.confidence ∧ p.confidence ≤ 100 ∧ ∃ m : ℤ, p.confidence = m / 100) ∧
    (∀ p ∈ [(⟨1, 50⟩ : Prediction)],
      0 ≤ p.confidence ∧ p.confidence ≤ 100 ∧ ∃ m : ℤ, p.confidence = m / 100) ∧
    ∀ q ∈ combinePredictions [⟨1, 80⟩] [⟨1, 50⟩],
      (0 ≤ q.confidence ∧ q.confidence ≤ 100) ∧
      min (confOf [⟨1, 80⟩] q.diseaseId) (confOf [⟨1, 50⟩] q.diseaseId) ≤ q.confidence ∧
      q.confidence ≤ max (confOf [⟨1, 80⟩] q.diseaseId) (confOf [⟨1, 50⟩] q.diseaseId) := by
  have h3 : ∀ p ∈ [(⟨1, 80⟩ : Prediction)],
      0 ≤ p.confidence ∧ p.confidence ≤ 100 ∧ ∃ m : ℤ, p.confidence = m / 100 := by
    intro p hp
    have : p = ⟨1, 80⟩ := by simpa using hp
    subst this
    exact ⟨by norm_num, by norm_num, ⟨8000, by norm_num⟩⟩
  have h4 : ∀ p ∈ [(⟨1, 50⟩ : Prediction)],
      0 ≤ p.confidence ∧ p.confidence ≤ 100 ∧ ∃ m : ℤ, p.confidence = m / 100 := by
    intro p hp
    have : p = ⟨1, 50⟩ := by simpa using hp
    subst this
    exact ⟨by norm_num, by norm_num, ⟨5000, by norm_num⟩⟩
  exact ⟨by decide, by decide, h3, h4,
    c10_combined_confidence_bounds [⟨1, 80⟩] [⟨1, 50⟩] (by decide) (by decide) h3 h4⟩

/-- C10, counterexample to the claim as stated: with both input confidences
equal to `1/250 = 0.004 ∈ [0,100]`, the combined confidence
`round2(0.6·0.004 + 0.4·0.004) = round2(0.004) = 0` falls strictly below the
smaller of the two input confidences, because the final rounding to 2
decimals can move the convex combination below `min`.  (It cannot happen when
the inputs are themselves 2-decimal values, which is what the amendment
assumes.) -/
theorem c10_round_below_min_counterexample :
    ((0 : ℚ) ≤ 1/250 ∧ (1/250 : ℚ) ≤ 100) ∧
    combinePredictions [⟨1, 1/250⟩] [⟨1, 1/250⟩] = [⟨1, 0⟩] ∧
    (0 : ℚ) < min ((1 : ℚ)/250) (1/250) := by
  refine ⟨⟨by norm_num, by norm_num⟩, ?_, by norm_num⟩
  norm_num [combinePredictions, combinedTable, addML, addRule, sortByConfDesc,
    List.insertionSort, List.orderedInsert, List.enum, List.enumFrom, round2, round_eq,
    Int.floor_eq_iff]
